import Mathlib

/-!
Shallow embedding of the audio analysis and mixdown core of the repository
(src/analysis/audio_analysis.py, src/mixing/mixdown.py, src/generation/mixdown.py).

Conventions of the embedding:
* float32 samples are modelled as exact rationals (ℚ); numpy arithmetic on
  arrays becomes list arithmetic on `List ℚ`.
* a 2-D numpy array of shape (frames, channels) is a `List (List ℚ)` of rows.
* Python exceptions become `Except PyError`; an output WAV file is modelled as
  the `.ok` payload (samples, sample rate) — the source writes the file only
  after all computation succeeded, so an `.error` result means no file is written.
-/

/-- Python exception values that the embedded functions can raise. -/
inductive PyError where
  | valueError (msg : String)
  | keyError (key : String)
deriving DecidableEq, Repr

/-- np.min over a non-empty array; the empty case is unreachable where used. -/
def npMin : List ℚ → ℚ
  | [] => 0
  | x :: xs => xs.foldl min x

/-- np.max over a non-empty array; the empty case is unreachable where used. -/
def npMax : List ℚ → ℚ
  | [] => 0
  | x :: xs => xs.foldl max x

/-- np.mean of a 1-D array: sum divided by length. -/
def npMean (l : List ℚ) : ℚ := l.sum / (l.length : ℚ)

/-- np.pad(data, (0, n - len(data))): zero-pad a 1-D array at the end to length n. -/
def padEnd (n : ℕ) (xs : List ℚ) : List ℚ := xs ++ List.replicate (n - xs.length) 0

/-- Elementwise sum of two equal-length 1-D arrays. -/
def addLists (a b : List ℚ) : List ℚ := List.zipWith (· + ·) a b

/-- np.sum(stacked, axis=0) for a stack of length-n arrays. -/
def sumAxis0 (arrays : List (List ℚ)) (n : ℕ) : List ℚ :=
  arrays.foldr addLists (List.replicate n 0)

/-- One decoded audio array as returned by soundfile: either 1-D (mono) or a
2-D (frames, channels) array with a declared channel count. -/
inductive AudioArray where
  | mono (samples : List ℚ)
  | multi (channels : ℕ) (frames : List (List ℚ))
deriving DecidableEq, Repr

/-- Well-formedness of an `AudioArray` as a rectangular numpy array with at
least one channel: every row of a 2-D array has exactly `channels` entries. -/
def wfInput : AudioArray → Prop
  | .mono _ => True
  | .multi c fr => 1 ≤ c ∧ ∀ r ∈ fr, r.length = c

/-- Number of frames of a decoded array (its len()). -/
def numFrames : AudioArray → ℕ
  | .mono xs => xs.length
  | .multi _ fr => fr.length

/-- An audio file's decoded contents: data plus sample rate, as `sf.read` yields. -/
structure AudioFile where
  data : AudioArray
  sr : ℕ
deriving DecidableEq, Repr

/-! ### src/mixing/mixdown.py -/

/-- Body of `_load_wave`: reduce a decoded array to mono by averaging the
channels of each frame (np.mean(data, axis=1) divides by the channel count). -/
def monoData (s : AudioFile) : List ℚ :=
  match s.data with
  | .mono xs => xs
  | .multi c fr => fr.map (fun r => r.sum / (c : ℚ))

/-- Sample-rate consistency loop of `mix_stems`: the first stem fixes
`sample_rate`; any later stem with a different rate raises ValueError. -/
def checkRates (sr0 : ℕ) : List AudioFile → Except PyError Unit
  | [] => .ok ()
  | s :: ss =>
      if s.sr ≠ sr0 then .error (.valueError "All stems must share the same sample rate.")
      else checkRates sr0 ss

/-- Tail of `mix_stems` after the input checks: zero-pad every loaded mono
array at the end to the maximum length, take the per-sample arithmetic mean
across stems, divide by the absolute peak when it exceeds 1.0, and return
(samples, sample rate).  np.max of a zero-length mix raises in numpy, which
the zero-length guard mirrors. -/
def mixCore (arrays : List (List ℚ)) (sr : ℕ) : Except PyError (List ℚ × ℕ) :=
  let maxLength := arrays.foldl (fun m d => max m d.length) 0
  let stacked := arrays.map (padEnd maxLength)
  let mixRaw := (sumAxis0 stacked maxLength).map (fun x => x / (stacked.length : ℚ))
  if maxLength = 0 then
    .error (.valueError "zero-size array to reduction operation maximum which has no identity")
  else
    let peak := npMax (mixRaw.map (fun x => |x|))
    let mix := if 1 < peak then mixRaw.map (fun x => x / peak) else mixRaw
    .ok (mix, sr)

/-- mix_stems (src/mixing/mixdown.py): requires at least two stems, loads each
as mono, requires one common sample rate (fixed by the first stem), then mixes
via `mixCore`. -/
def mix_stems (stems : List AudioFile) : Except PyError (List ℚ × ℕ) :=
  match stems with
  | [] => .error (.valueError "Provide at least two stems to mix.")
  | [_] => .error (.valueError "Provide at least two stems to mix.")
  | s0 :: rest =>
    match checkRates s0.sr rest with
    | .error e => .error e
    | .ok _ => mixCore ((s0 :: rest).map monoData) s0.sr

/-! ### src/generation/mixdown.py -/

/-- Inner helper `_to_stereo` of `mix_backing_and_vocal`: 1-D input is stacked
into two identical channels; a single-channel 2-D input is np.repeat-ed along
axis 1; more than two channels are truncated to the first two; exactly two
channels pass through unchanged. -/
def _to_stereo : AudioArray → List (List ℚ)
  | .mono xs => xs.map (fun x => [x, x])
  | .multi c fr =>
      if c = 1 then fr.map (fun r => r.flatMap (fun x => [x, x]))
      else if 2 < c then fr.map (fun r => r.take 2)
      else fr

/-- np.linspace(a, b, n): n evenly spaced points from a to b inclusive. -/
def linspace (a b : ℚ) (n : ℕ) : List ℚ :=
  match n with
  | 0 => []
  | 1 => [a]
  | Nat.succ (Nat.succ m) =>
      (List.range (m + 2)).map (fun (i : ℕ) => a + (b - a) * (i : ℚ) / ((m + 1 : ℕ) : ℚ))

/-- np.interp(t, old_idx, fp) where old_idx = linspace(0, len(fp)-1, len(fp))
= [0, 1, ..., len(fp)-1]: clamp outside the index range, linear interpolation
between consecutive integer sample positions inside it. -/
def npInterp (fp : List ℚ) (t : ℚ) : ℚ :=
  if t ≤ 0 then fp.headD 0
  else if ((fp.length : ℚ) - 1) ≤ t then fp.getLastD 0
  else
    let j := (Int.floor t).toNat
    fp.getD j 0 + (t - (j : ℚ)) * (fp.getD (j + 1) 0 - fp.getD j 0)

/-- Python's built-in round (half to even), as applied by int(round(x)) to a
non-negative float in the resampling branch. -/
def pythonRound (q : ℚ) : ℤ :=
  let f := Int.floor q
  let r := q - (f : ℚ)
  if r < 1 / 2 then f
  else if 1 / 2 < r then f + 1
  else if Even f then f else f + 1

/-- Resampling loop of `mix_backing_and_vocal`: per channel, np.interp the
column at the positions linspace(0, len-1, targetLen), then np.stack(axis=1)
the channels back into frames. -/
def resampleFrames (fr : List (List ℚ)) (targetLen : ℕ) : List (List ℚ) :=
  let cols := (fr.headD []).length
  let newIdx := linspace 0 ((fr.length : ℚ) - 1) targetLen
  newIdx.map (fun t => (List.range cols).map (fun ch => npInterp (fr.map (fun r => r.getD ch 0)) t))

/-- np.pad(frames, ((0, n - len), (0, 0))): append zero frames to reach length
n; the stereo buffers being padded have two columns. -/
def padFrames (fr : List (List ℚ)) (n : ℕ) : List (List ℚ) :=
  fr ++ List.replicate (n - fr.length) (List.replicate 2 0)

/-- mix = backing + vocal * gain, elementwise over (frames, channels) buffers;
`g` is the linear gain 10^(vocal_gain_db/20) already converted from dB. -/
def mixSum (backing vocal : List (List ℚ)) (g : ℚ) : List (List ℚ) :=
  List.zipWith (fun br vr => List.zipWith (fun x y => x + y * g) br vr) backing vocal

/-- Absolute peak np.max(np.abs(mix)) of a (frames, channels) buffer. -/
def peakOf (mix : List (List ℚ)) : ℚ := npMax (mix.flatten.map (fun x => |x|))

/-- Peak-normalization step of `mix_backing_and_vocal`: when the absolute peak
exceeds 1.0, scale every sample by 0.99/peak; otherwise leave the mix alone. -/
def peakNormalize (mix : List (List ℚ)) : List (List ℚ) :=
  if 1 < peakOf mix then mix.map (fun r => r.map (fun x => x / peakOf mix * (99 / 100))) else mix

/-- mix_backing_and_vocal (src/generation/mixdown.py): stereo-normalize both
buffers, resample the vocal to the backing rate by linear interpolation when
the rates differ (target length int(round(len * sr_back / sr_voc)), falling
back to the backing length when non-positive), zero-pad the shorter buffer,
sum with the linear vocal gain `g` = 10^(vocal_gain_db/20), peak-normalize to
0.99, and return (samples, backing sample rate) — the payload written to the
output WAV. -/
def mix_backing_and_vocal (backing vocal : AudioFile) (g : ℚ) : List (List ℚ) × ℕ :=
  let b := _to_stereo backing.data
  let v0 := _to_stereo vocal.data
  let v :=
    if vocal.sr = backing.sr then v0
    else
      let t0 : ℤ := pythonRound ((v0.length : ℚ) * (backing.sr : ℚ) / (vocal.sr : ℚ))
      let targetLen : ℕ := if t0 ≤ 0 then b.length else t0.toNat
      resampleFrames v0 targetLen
  let maxLen := max b.length v.length
  let mix := mixSum (padFrames b maxLen) (padFrames v maxLen) g
  (peakNormalize mix, backing.sr)

/-! ### src/analysis/audio_analysis.py -/

/-- FREQUENCY_BANDS constant: (name, low Hz, optional high Hz), in dict order. -/
def FREQUENCY_BANDS : List (String × ℚ × Option ℚ) :=
  [("low", (20, some 250)), ("mid", (250, some 2000)), ("high", (2000, none))]

/-- Per-bin mask predicate built in the band loop of `analyze_track`:
freqs >= low, intersected with freqs < high when high is not None. -/
def bandMaskBin (low : ℚ) (high : Option ℚ) (fq : ℚ) : Bool :=
  decide (low ≤ fq) &&
    match high with
    | some h => decide (fq < h)
    | none => true

/-- The boolean mask over the frequency axis for one band. -/
def bandMask (freqs : List ℚ) (low : ℚ) (high : Option ℚ) : List Bool :=
  freqs.map (bandMaskBin low high)

/-- _mean_magnitude: 0.0 when the mask selects nothing, otherwise the mean of
the selected spectrogram rows (magnitude has one row per frequency bin). -/
def _mean_magnitude (magnitude : List (List ℚ)) (mask : List Bool) : ℚ :=
  if mask.any id = false then 0
  else npMean (((mask.zip magnitude).filter (fun p => p.1)).map (fun p => p.2)).flatten

/-- Band-energy loop of `analyze_track` (lines 42-47): one entry per
FREQUENCY_BANDS item, in order. -/
def band_energy_of (magnitude : List (List ℚ)) (freqs : List ℚ) : List (String × ℚ) :=
  FREQUENCY_BANDS.map (fun bnd => (bnd.1, _mean_magnitude magnitude (bandMask freqs bnd.2.1 bnd.2.2)))

/-- One per-track feature dict as consumed by `aggregate_style_stats`: the
tempo entry, and the "band_energy" entry, `none` when the key is absent
(an insertion-ordered dict is an association list). -/
structure FeatureDict where
  tempo : ℚ
  band_energy : Option (List (String × ℚ))
deriving DecidableEq, Repr

/-- The dict returned by `aggregate_style_stats`. -/
structure StyleProfile where
  tempo_range : List ℚ
  tempo_mean : ℚ
  energy_profile : List (String × ℚ)
deriving DecidableEq, Repr

/-- _extract_band_names: take the first feature dict (ValueError when there is
none), read its band_energy keys with {} as default for a missing key, and
fail with ValueError when that key list is empty. -/
def _extract_band_names (feature_dicts : List FeatureDict) : Except PyError (List String) :=
  match feature_dicts with
  | [] => .error (.valueError "No feature dictionaries provided")
  | first :: _ =>
    let bands := (first.band_energy.getD []).map Prod.fst
    if bands.isEmpty then .error (.valueError "band_energy information is missing from features")
    else .ok bands

/-- Python expression f["band_energy"][band]: KeyError "band_energy" when the
dict lacks the band_energy entry, KeyError band when the band is missing. -/
def lookupBand (f : FeatureDict) (band : String) : Except PyError ℚ :=
  match f.band_energy with
  | none => .error (.keyError "band_energy")
  | some m =>
    match m.lookup band with
    | none => .error (.keyError band)
    | some v => .ok v

/-- Left-to-right evaluation of a list comprehension whose element expression
can raise: the first exception aborts the whole comprehension. -/
def mapExcept (g : α → Except PyError β) : List α → Except PyError (List β)
  | [] => .ok []
  | a :: as_ =>
    match g a with
    | .error e => .error e
    | .ok b =>
      match mapExcept g as_ with
      | .error e => .error e
      | .ok bs => .ok (b :: bs)

/-- aggregate_style_stats (src/analysis/audio_analysis.py): ValueError on an
empty collection; tempo_range = [np.min, np.max] and tempo_mean = np.mean over
all tempos; band names from the first feature via `_extract_band_names`; the
energy profile maps each such band to the mean of f["band_energy"][band] over
all features, raising KeyError when a feature lacks the band. -/
def aggregate_style_stats (features : List FeatureDict) : Except PyError StyleProfile :=
  if features.isEmpty then .error (.valueError "features list must not be empty")
  else
    let tempos := features.map (fun f => f.tempo)
    let tempo_range := [npMin tempos, npMax tempos]
    let tempo_mean := npMean tempos
    match _extract_band_names features with
    | .error e => .error e
    | .ok band_names =>
      match mapExcept (fun band =>
          match mapExcept (fun f => lookupBand f band) features with
          | .error e => .error e
          | .ok values => .ok (band, npMean values)) band_names with
      | .error e => .error e
      | .ok energy_profile => .ok ⟨tempo_range, tempo_mean, energy_profile⟩

/-! ### Helper lemmas -/

theorem foldl_min_mem (x : ℚ) (xs : List ℚ) : xs.foldl min x ∈ x :: xs := by
  induction xs generalizing x with
  | nil => simp
  | cons y ys ih =>
    simp only [List.foldl_cons, List.mem_cons]
    rcases List.mem_cons.mp (ih (min x y)) with h | h
    · rcases min_choice x y with hc | hc
      · exact Or.inl (h.trans hc)
      · exact Or.inr (Or.inl (h.trans hc))
    · exact Or.inr (Or.inr h)

theorem foldl_min_le (x : ℚ) (xs : List ℚ) :
    xs.foldl min x ≤ x ∧ ∀ y ∈ xs, xs.foldl min x ≤ y := by
  induction xs generalizing x with
  | nil => simp
  | cons y ys ih =>
    obtain ⟨h1, h2⟩ := ih (min x y)
    refine ⟨?_, ?_⟩
    · simp only [List.foldl_cons]
      exact h1.trans (min_le_left x y)
    · intro z hz
      simp only [List.foldl_cons]
      rcases List.mem_cons.mp hz with rfl | hz'
      · exact h1.trans (min_le_right x z)
      · exact h2 z hz'

theorem foldl_max_mem (x : ℚ) (xs : List ℚ) : xs.foldl max x ∈ x :: xs := by
  induction xs generalizing x with
  | nil => simp
  | cons y ys ih =>
    simp only [List.foldl_cons, List.mem_cons]
    rcases List.mem_cons.mp (ih (max x y)) with h | h
    · rcases max_choice x y with hc | hc
      · exact Or.inl (h.trans hc)
      · exact Or.inr (Or.inl (h.trans hc))
    · exact Or.inr (Or.inr h)

theorem le_foldl_max (x : ℚ) (xs : List ℚ) :
    x ≤ xs.foldl max x ∧ ∀ y ∈ xs, y ≤ xs.foldl max x := by
  induction xs generalizing x with
  | nil => simp
  | cons y ys ih =>
    obtain ⟨h1, h2⟩ := ih (max x y)
    refine ⟨?_, ?_⟩
    · simp only [List.foldl_cons]
      exact (le_max_left x y).trans h1
    · intro z hz
      simp only [List.foldl_cons]
      rcases List.mem_cons.mp hz with rfl | hz'
      · exact (le_max_right x z).trans h1
      · exact h2 z hz'

theorem npMin_mem {l : List ℚ} (h : l ≠ []) : npMin l ∈ l := by
  cases l with
  | nil => exact absurd rfl h
  | cons x xs => exact foldl_min_mem x xs

theorem npMin_le (l : List ℚ) : ∀ y ∈ l, npMin l ≤ y := by
  cases l with
  | nil => intro y hy; cases hy
  | cons x xs =>
    intro y hy
    rcases List.mem_cons.mp hy with rfl | hy'
    · exact (foldl_min_le y xs).1
    · exact (foldl_min_le x xs).2 y hy'

theorem npMax_mem {l : List ℚ} (h : l ≠ []) : npMax l ∈ l := by
  cases l with
  | nil => exact absurd rfl h
  | cons x xs => exact foldl_max_mem x xs

theorem le_npMax (l : List ℚ) : ∀ y ∈ l, y ≤ npMax l := by
  cases l with
  | nil => intro y hy; cases hy
  | cons x xs =>
    intro y hy
    rcases List.mem_cons.mp hy with rfl | hy'
    · exact (le_foldl_max y xs).1
    · exact (le_foldl_max x xs).2 y hy'

theorem npMin_perm {l l' : List ℚ} (h : l.Perm l') : npMin l = npMin l' := by
  rcases eq_or_ne l [] with rfl | hne
  · rw [h.symm.eq_nil]
  · have hne' : l' ≠ [] := by
      intro h0
      exact hne ((h0 ▸ h).eq_nil)
    exact le_antisymm
      (npMin_le l (npMin l') (h.mem_iff.mpr (npMin_mem hne')))
      (npMin_le l' (npMin l) (h.mem_iff.mp (npMin_mem hne)))

theorem npMax_perm {l l' : List ℚ} (h : l.Perm l') : npMax l = npMax l' := by
  rcases eq_or_ne l [] with rfl | hne
  · rw [h.symm.eq_nil]
  · have hne' : l' ≠ [] := by
      intro h0
      exact hne ((h0 ▸ h).eq_nil)
    exact le_antisymm
      (le_npMax l' (npMax l) (h.mem_iff.mp (npMax_mem hne)))
      (le_npMax l (npMax l') (h.mem_iff.mpr (npMax_mem hne')))

theorem npMean_perm {l l' : List ℚ} (h : l.Perm l') : npMean l = npMean l' := by
  unfold npMean
  rw [h.sum_eq, h.length_eq]

theorem npMean_nonneg {l : List ℚ} (h : ∀ x ∈ l, 0 ≤ x) : 0 ≤ npMean l := by
  unfold npMean
  exact div_nonneg (List.sum_nonneg h) (by positivity)

theorem mapExcept_ok_mem {α β : Type} {g : α → Except PyError β} {l : List α} {v : List β}
    (h : mapExcept g l = .ok v) : ∀ a ∈ l, ∃ y, g a = .ok y := by
  induction l generalizing v with
  | nil => intro a ha; cases ha
  | cons b bs ih =>
    intro a ha
    simp only [mapExcept] at h
    cases hg : g b with
    | error e => rw [hg] at h; cases h
    | ok y =>
      rw [hg] at h
      cases hm : mapExcept g bs with
      | error e => rw [hm] at h; cases h
      | ok ys =>
        rw [hm] at h
        rcases List.mem_cons.mp ha with rfl | ha'
        · exact ⟨y, hg⟩
        · exact ih hm a ha'

theorem checkRates_ok_iff (sr0 : ℕ) (l : List AudioFile) :
    checkRates sr0 l = .ok () ↔ ∀ s ∈ l, s.sr = sr0 := by
  induction l with
  | nil => simp [checkRates]
  | cons s ss ih =>
    by_cases h : s.sr = sr0
    · simp [checkRates, h, ih]
    · simp [checkRates, h, List.forall_mem_cons]

theorem checkRates_ok_or_error (sr0 : ℕ) (l : List AudioFile) :
    checkRates sr0 l = .ok () ∨
      checkRates sr0 l = .error (.valueError "All stems must share the same sample rate.") := by
  induction l with
  | nil => exact Or.inl rfl
  | cons s ss ih =>
    by_cases h : s.sr = sr0
    · simpa [checkRates, h] using ih
    · simp [checkRates, h]

theorem foldl_max_map_mul {c : ℚ} (hc : 0 ≤ c) (xs : List ℚ) (x : ℚ) :
    (xs.map (fun y => y * c)).foldl max (x * c) = (xs.foldl max x) * c := by
  induction xs generalizing x with
  | nil => simp
  | cons y ys ih =>
    simp only [List.map_cons, List.foldl_cons]
    rw [← max_mul_of_nonneg _ _ hc, ih]

theorem npMax_map_mul {c : ℚ} (hc : 0 ≤ c) {l : List ℚ} (h : l ≠ []) :
    npMax (l.map (fun y => y * c)) = npMax l * c := by
  cases l with
  | nil => exact absurd rfl h
  | cons x xs =>
    simp only [npMax, List.map_cons]
    exact foldl_max_map_mul hc xs x

/-- C1: in mix_backing_and_vocal, after mix = backing + vocal * gain, a mix
whose absolute peak is at most 1.0 is returned with its raw summed samples
unchanged, while a mix whose peak exceeds 1.0 is rescaled by the single factor
0.99/peak, making its new absolute peak exactly 0.99. -/
theorem C1_peak_normalization (backing vocal : List (List ℚ)) (g : ℚ) :
    (peakOf (mixSum backing vocal g) ≤ 1 →
      peakNormalize (mixSum backing vocal g) = mixSum backing vocal g) ∧
    (1 < peakOf (mixSum backing vocal g) →
      peakNormalize (mixSum backing vocal g) =
        (mixSum backing vocal g).map
          (fun r => r.map (fun x => x / peakOf (mixSum backing vocal g) * (99 / 100))) ∧
      peakOf (peakNormalize (mixSum backing vocal g)) = 99 / 100) := by
  set m := mixSum backing vocal g with hm
  constructor
  · intro hle
    unfold peakNormalize
    rw [if_neg (not_lt.mpr hle)]
  · intro hgt
    have hp0 : (0 : ℚ) < peakOf m := lt_trans one_pos hgt
    have hscaled : peakNormalize m =
        m.map (fun r => r.map (fun x => x / peakOf m * (99 / 100))) := by
      unfold peakNormalize
      rw [if_pos hgt]
    refine ⟨hscaled, ?_⟩
    have hne : m.flatten ≠ [] := by
      intro h0
      rw [peakOf, h0] at hgt
      norm_num [npMax] at hgt
    have habs : ∀ x : ℚ, |x / peakOf m * (99 / 100)| = |x| * (99 / 100 / peakOf m) := by
      intro x
      have h1 : x / peakOf m * (99 / 100) = x * (99 / 100 / peakOf m) := by ring
      rw [h1, abs_mul, abs_of_pos (by positivity : (0:ℚ) < 99 / 100 / peakOf m)]
    rw [hscaled, peakOf, ← List.map_flatten, List.map_map]
    have hfun : ((fun x => |x|) ∘ fun x => x / peakOf m * (99 / 100)) =
        ((fun y => y * (99 / 100 / peakOf m)) ∘ fun x : ℚ => |x|) := by
      funext x
      exact habs x
    rw [hfun, ← List.map_map]
    rw [npMax_map_mul (by positivity) (by simpa using hne)]
    rw [show npMax (List.map (fun x => |x|) m.flatten) = peakOf m from rfl]
    field_simp
    ring

theorem C1_peak_normalization_witness :
    1 < peakOf (mixSum [[2, 0]] [[0, 0]] 1) ∧
    peakOf (peakNormalize (mixSum [[2, 0]] [[0, 0]] 1)) = 99 / 100 :=
  ⟨by norm_num [mixSum, peakOf, npMax],
   ((C1_peak_normalization [[2, 0]] [[0, 0]] 1).2
      (by norm_num [mixSum, peakOf, npMax])).2⟩

theorem length_flatMap_pair (r : List ℚ) : (r.flatMap (fun x => [x, x])).length = 2 * r.length := by
  induction r with
  | nil => simp
  | cons a as ih =>
    simp only [List.flatMap_cons, List.length_append, List.length_cons, List.length_nil, ih]
    omega

theorem to_stereo_rows_two {a : AudioArray} (h : wfInput a) :
    ∀ r ∈ _to_stereo a, r.length = 2 := by
  cases a with
  | mono xs =>
    intro r hr
    simp only [_to_stereo, List.mem_map] at hr
    obtain ⟨x, _, rfl⟩ := hr
    rfl
  | multi c fr =>
    simp only [wfInput] at h
    obtain ⟨hc, hrows⟩ := h
    intro r hr
    simp only [_to_stereo] at hr
    by_cases h1 : c = 1
    · subst h1
      rw [if_pos rfl] at hr
      obtain ⟨r0, hr0, rfl⟩ := List.mem_map.mp hr
      rw [length_flatMap_pair, hrows r0 hr0]
    · rw [if_neg h1] at hr
      by_cases h2 : 2 < c
      · rw [if_pos h2] at hr
        obtain ⟨r0, hr0, rfl⟩ := List.mem_map.mp hr
        rw [List.length_take, hrows r0 hr0]
        omega
      · rw [if_neg h2] at hr
        have hc2 : c = 2 := by omega
        rw [hrows r hr, hc2]

/-- C4: the channel normalizer _to_stereo duplicates a 1-D mono input into two
identical channels, duplicates a single-channel 2-D input, truncates an input
with more than two channels to its first two, passes an exactly-2-channel
input through unchanged, always keeps the frame count, and (on well-formed
input) always yields rows of exactly two channels. -/
theorem C4_to_stereo_cases :
    (∀ xs : List ℚ, _to_stereo (.mono xs) = xs.map (fun x => [x, x])) ∧
    (∀ fr : List (List ℚ), (∀ r ∈ fr, r.length = 1) →
      _to_stereo (.multi 1 fr) = fr.map (fun r => [r.getD 0 0, r.getD 0 0])) ∧
    (∀ (c : ℕ) (fr : List (List ℚ)), 2 < c →
      _to_stereo (.multi c fr) = fr.map (fun r => r.take 2)) ∧
    (∀ fr : List (List ℚ), _to_stereo (.multi 2 fr) = fr) ∧
    (∀ a : AudioArray, (_to_stereo a).length = numFrames a) ∧
    (∀ a : AudioArray, wfInput a → ∀ r ∈ _to_stereo a, r.length = 2) := by
  refine ⟨?_, ?_, ?_, ?_, ?_, ?_⟩
  · intro xs
    rfl
  · intro fr hrows
    simp only [_to_stereo, if_pos rfl]
    apply List.map_congr_left
    intro r hr
    cases r with
    | nil => cases (hrows [] hr)
    | cons x t =>
      have ht : t = [] := by
        have := hrows (x :: t) hr
        simpa using List.length_eq_zero.mp (by simpa using this)
      subst ht
      rfl
  · intro c fr hc
    have h1 : c ≠ 1 := by omega
    simp [_to_stereo, h1, hc]
  · intro fr
    norm_num [_to_stereo]
  · intro a
    cases a with
    | mono xs => simp [_to_stereo, numFrames]
    | multi c fr =>
      simp only [_to_stereo, numFrames]
      split_ifs <;> simp
  · intro a h
    exact to_stereo_rows_two h

theorem C4_to_stereo_cases_witness :
    _to_stereo (.multi 1 [[5]]) = [[(5 : ℚ), 5]] := by
  have h := C4_to_stereo_cases.2.1 [[(5 : ℚ)]] (by intro r hr; simp at hr; simp [hr])
  simpa using h

/-- C10: a first feature record with no band_energy key at all is treated
exactly like one whose band_energy dict is empty: aggregate_style_stats raises
the same ValueError "band_energy information is missing from features" in both
cases, not a key-lookup (KeyError) failure. -/
theorem C10_missing_band_energy (f0 : FeatureDict) (rest : List FeatureDict)
    (h : f0.band_energy = none ∨ f0.band_energy = some []) :
    aggregate_style_stats (f0 :: rest) =
      .error (.valueError "band_energy information is missing from features") := by
  have hex : _extract_band_names (f0 :: rest) =
      .error (.valueError "band_energy information is missing from features") := by
    rcases h with h | h <;> simp [_extract_band_names, h]
  simp [aggregate_style_stats, hex]

theorem C10_missing_band_energy_witness :
    aggregate_style_stats [⟨100, none⟩] =
      .error (.valueError "band_energy information is missing from features") :=
  C10_missing_band_energy ⟨100, none⟩ [] (Or.inl rfl)

theorem lookup_eq_none_of_not_mem {b : String} {m : List (String × ℚ)}
    (h : b ∉ m.map Prod.fst) : m.lookup b = none := by
  induction m with
  | nil => rfl
  | cons p ps ih =>
    cases p with
    | mk k v =>
      simp only [List.map_cons, List.mem_cons, not_or] at h
      obtain ⟨h1, h2⟩ := h
      have hbk : (b == k) = false := beq_eq_false_iff_ne.mpr h1
      simp [List.lookup, hbk, ih h2]

theorem lookupBand_error_of_missing {f : FeatureDict} {b : String}
    (h : b ∉ (f.band_energy.getD []).map Prod.fst) :
    ∃ e, lookupBand f b = .error e := by
  cases hbe : f.band_energy with
  | none => exact ⟨.keyError "band_energy", by simp [lookupBand, hbe]⟩
  | some m =>
    rw [hbe] at h
    simp only [Option.getD_some] at h
    exact ⟨.keyError b, by simp [lookupBand, hbe, lookup_eq_none_of_not_mem h]⟩

theorem aggregate_ok_bands {features : List FeatureDict} {p : StyleProfile}
    (h : aggregate_style_stats features = .ok p) :
    ∃ bands, _extract_band_names features = .ok bands ∧
      ∀ b ∈ bands, ∀ f ∈ features, ∃ y, lookupBand f b = .ok y := by
  rw [aggregate_style_stats] at h
  split at h
  · cases h
  · split at h
    · cases h
    · next band_names hex =>
      split at h
      · cases h
      · next ep hmap =>
        refine ⟨band_names, hex, ?_⟩
        intro b hbmem f hfmem
        obtain ⟨y, hy⟩ := mapExcept_ok_mem hmap b hbmem
        cases hin : mapExcept (fun f => lookupBand f b) features with
        | error e => rw [hin] at hy; cases hy
        | ok values => exact mapExcept_ok_mem hin f hfmem

/-- C6: when some element of the aggregated collection lacks a band key that is
present in the first element's band_energy, aggregate_style_stats fails with an
error (isOk = false): it never returns a profile built with a silent zero (or
any other default) in place of the missing band value. -/
theorem C6_inconsistent_bands (f0 f : FeatureDict) (rest : List FeatureDict) (b : String)
    (hb : b ∈ (f0.band_energy.getD []).map Prod.fst)
    (hf : f ∈ f0 :: rest)
    (hmiss : b ∉ (f.band_energy.getD []).map Prod.fst) :
    (aggregate_style_stats (f0 :: rest)).isOk = false := by
  cases hagg : aggregate_style_stats (f0 :: rest) with
  | error e => rfl
  | ok p =>
    exfalso
    obtain ⟨bands, hex, hall⟩ := aggregate_ok_bands hagg
    have hbands : bands = (f0.band_energy.getD []).map Prod.fst := by
      simp only [_extract_band_names] at hex
      split at hex
      · cases hex
      · exact (Except.ok.inj hex).symm
    obtain ⟨y, hy⟩ := hall b (hbands ▸ hb) f hf
    obtain ⟨e, he⟩ := lookupBand_error_of_missing hmiss
    rw [he] at hy
    cases hy

theorem C6_inconsistent_bands_witness :
    (aggregate_style_stats [⟨100, some [("low", 1)]⟩, ⟨120, none⟩]).isOk = false :=
  C6_inconsistent_bands ⟨100, some [("low", 1)]⟩ ⟨120, none⟩ [⟨120, none⟩] "low"
    (by simp) (by simp) (by simp)

theorem aggregate_ok_tempo {features : List FeatureDict} {p : StyleProfile}
    (h : aggregate_style_stats features = .ok p) :
    p.tempo_range =
        [npMin (features.map fun f => f.tempo), npMax (features.map fun f => f.tempo)] ∧
    p.tempo_mean = npMean (features.map fun f => f.tempo) ∧ features ≠ [] := by
  rw [aggregate_style_stats] at h
  split at h
  · cases h
  · next hemp =>
    have hne : features ≠ [] := by
      intro h0
      rw [h0] at hemp
      simp at hemp
    split at h
    · cases h
    · split at h
      · cases h
      · next ep hmap =>
        cases h
        exact ⟨rfl, rfl, hne⟩

/-- C5: for every non-empty collection accepted by aggregate_style_stats, the
returned tempo_range is [minimum tempo, maximum tempo] (the bounds being
members of and bounds for the tempo multiset, hence order-independent, which
the permutation clauses state explicitly) and tempo_mean is the exact
arithmetic mean sum/len of the tempos; in particular tempos 100 and 120 give
tempo_range [100, 120] and tempo_mean 110. -/
theorem C5_aggregate_tempo_stats (features features' : List FeatureDict) (p p' : StyleProfile)
    (hok : aggregate_style_stats features = .ok p)
    (hperm : features.Perm features')
    (hok' : aggregate_style_stats features' = .ok p') :
    p.tempo_range =
        [npMin (features.map fun f => f.tempo), npMax (features.map fun f => f.tempo)] ∧
    p.tempo_mean = npMean (features.map fun f => f.tempo) ∧
    p.tempo_mean = (features.map fun f => f.tempo).sum / (features.length : ℚ) ∧
    npMin (features.map fun f => f.tempo) ∈ features.map (fun f => f.tempo) ∧
    (∀ x ∈ features.map (fun f => f.tempo), npMin (features.map fun f => f.tempo) ≤ x) ∧
    npMax (features.map fun f => f.tempo) ∈ features.map (fun f => f.tempo) ∧
    (∀ x ∈ features.map (fun f => f.tempo), x ≤ npMax (features.map fun f => f.tempo)) ∧
    p'.tempo_range = p.tempo_range ∧ p'.tempo_mean = p.tempo_mean ∧
    aggregate_style_stats [⟨100, some [("low", 1)]⟩, ⟨120, some [("low", 1)]⟩] =
      .ok ⟨[100, 120], 110, [("low", 1)]⟩ := by
  obtain ⟨hr, hm, hne⟩ := aggregate_ok_tempo hok
  obtain ⟨hr', hm', hne'⟩ := aggregate_ok_tempo hok'
  have hpm : (features.map fun f => f.tempo).Perm (features'.map fun f => f.tempo) :=
    hperm.map _
  have hmapne : features.map (fun f => f.tempo) ≠ [] := by
    intro h0
    exact hne (List.map_eq_nil_iff.mp h0)
  refine ⟨hr, hm, ?_, npMin_mem hmapne, npMin_le _, npMax_mem hmapne, le_npMax _, ?_, ?_, ?_⟩
  · rw [hm]
    unfold npMean
    rw [List.length_map]
  · rw [hr', hr, npMin_perm hpm, npMax_perm hpm]
  · rw [hm', hm, npMean_perm hpm]
  · norm_num [aggregate_style_stats, _extract_band_names, mapExcept, lookupBand, npMin, npMax,
      npMean, List.lookup, min_def, max_def]

theorem C5_aggregate_tempo_stats_witness :
    aggregate_style_stats [⟨100, some [("low", 1)]⟩, ⟨120, some [("low", 1)]⟩] =
      .ok ⟨[100, 120], 110, [("low", 1)]⟩ := by
  have hok : aggregate_style_stats [⟨100, some [("low", 1)]⟩, ⟨120, some [("low", 1)]⟩] =
      .ok ⟨[100, 120], 110, [("low", 1)]⟩ := by
    norm_num [aggregate_style_stats, _extract_band_names, mapExcept, lookupBand, npMin, npMax,
      npMean, List.lookup, min_def, max_def]
  exact (C5_aggregate_tempo_stats _ _ _ _ hok (List.Perm.refl _) hok).2.2.2.2.2.2.2.2.2

/-- C7: mix_stems raises ValueError for every input with fewer than 2 stems;
it fails (isOk = false) whenever two supplied stems have different sample
rates; and any successful result has every stem's rate equal to the output
rate (so no resampling can have occurred).  An error result means no output
file is written, the write being the `.ok` payload. -/
theorem C7_mix_stems_errors (stems : List AudioFile) :
    (stems.length < 2 →
      mix_stems stems = .error (.valueError "Provide at least two stems to mix.")) ∧
    (∀ s1 ∈ stems, ∀ s2 ∈ stems, s1.sr ≠ s2.sr → (mix_stems stems).isOk = false) ∧
    (∀ out, mix_stems stems = .ok out → ∀ s ∈ stems, s.sr = out.2) := by
  refine ⟨?_, ?_, ?_⟩
  · intro hlen
    rcases stems with _ | ⟨s0, _ | ⟨sa, t⟩⟩
    · rfl
    · rfl
    · simp only [List.length_cons] at hlen
      omega
  · intro s1 hs1 s2 hs2 hne
    rcases stems with _ | ⟨s0, _ | ⟨sa, t⟩⟩
    · cases hs1
    · have e1 : s1 = s0 := by simpa using hs1
      have e2 : s2 = s0 := by simpa using hs2
      rw [e1, e2] at hne
      exact absurd rfl hne
    · have hex : ¬ ∀ s ∈ sa :: t, s.sr = s0.sr := by
        intro hall
        have h1 : s1.sr = s0.sr := by
          rcases List.mem_cons.mp hs1 with rfl | h
          · rfl
          · exact hall s1 h
        have h2 : s2.sr = s0.sr := by
          rcases List.mem_cons.mp hs2 with rfl | h
          · rfl
          · exact hall s2 h
        exact hne (h1.trans h2.symm)
      have herr : checkRates s0.sr (sa :: t) =
          .error (.valueError "All stems must share the same sample rate.") := by
        rcases checkRates_ok_or_error s0.sr (sa :: t) with hok | herr
        · exact absurd ((checkRates_ok_iff _ _).mp hok) hex
        · exact herr
      simp [mix_stems, herr, Except.isOk, Except.toBool]
  · intro out hok s hs
    rcases stems with _ | ⟨s0, _ | ⟨sa, t⟩⟩
    · cases hs
    · cases hok
    · simp only [mix_stems] at hok
      cases hcr : checkRates s0.sr (sa :: t) with
      | error e => simp [hcr] at hok
      | ok u =>
        simp only [hcr] at hok
        have hall : ∀ s' ∈ sa :: t, s'.sr = s0.sr := by
          cases u
          exact (checkRates_ok_iff _ _).mp hcr
        have hsr0 : out.2 = s0.sr := by
          simp only [mixCore] at hok
          by_cases h0 :
              List.foldl (fun m d => max m d.length) 0 (List.map monoData (s0 :: sa :: t)) = 0
          · rw [if_pos h0] at hok
            cases hok
          · rw [if_neg h0] at hok
            have hpair := Except.ok.inj hok
            rw [← hpair]
        rcases List.mem_cons.mp hs with rfl | h
        · exact hsr0.symm
        · rw [hall s h, hsr0]

theorem C7_mix_stems_errors_witness :
    (mix_stems [⟨.mono [0], 100⟩, ⟨.mono [0], 200⟩]).isOk = false :=
  (C7_mix_stems_errors _).2.1 ⟨.mono [0], 100⟩ (by simp) ⟨.mono [0], 200⟩ (by simp)
    (by decide)

theorem addLists_left_comm (a b c : List ℚ) :
    addLists a (addLists b c) = addLists b (addLists a c) := by
  induction a generalizing b c with
  | nil => simp [addLists]
  | cons x xs ih =>
    cases b with
    | nil => simp [addLists]
    | cons y ys =>
      cases c with
      | nil => simp [addLists]
      | cons z zs =>
        simp only [addLists, List.zipWith_cons_cons, List.cons.injEq]
        exact ⟨by ring, ih ys zs⟩

instance : LeftCommutative addLists := ⟨addLists_left_comm⟩

theorem sumAxis0_perm {arrays arrays' : List (List ℚ)} (h : arrays.Perm arrays') (n : ℕ) :
    sumAxis0 arrays n = sumAxis0 arrays' n := by
  unfold sumAxis0
  exact h.foldr_eq (List.replicate n 0)

instance : RightCommutative (fun (m : ℕ) (d : List ℚ) => max m d.length) :=
  ⟨fun m a b => by
    rw [max_assoc, max_comm a.length b.length, ← max_assoc]⟩

/-- C9: mix_stems is permutation-invariant on collections of at least two
stems sharing one sample rate: reordering the stems yields the very same
result (same samples, length, and sample rate). -/
theorem C9_mix_stems_perm (stems stems' : List AudioFile)
    (hperm : stems.Perm stems')
    (h2 : 2 ≤ stems.length)
    (hsr : ∀ s1 ∈ stems, ∀ s2 ∈ stems, s1.sr = s2.sr) :
    mix_stems stems = mix_stems stems' := by
  have hlen' := hperm.length_eq
  rcases stems with _ | ⟨s0, _ | ⟨sa, t⟩⟩
  · simp at h2
  · simp only [List.length_cons, List.length_nil] at h2
    omega
  · rcases stems' with _ | ⟨s0', _ | ⟨sa', t'⟩⟩
    · simp at hlen'
    · simp only [List.length_cons, List.length_nil] at hlen'
      omega
    · have hall : ∀ s ∈ s0 :: sa :: t, s.sr = s0.sr := fun s hs =>
        hsr s hs s0 (List.mem_cons_self _ _)
      have hall' : ∀ s ∈ s0' :: sa' :: t', s.sr = s0.sr := fun s hs =>
        hall s (hperm.mem_iff.mpr hs)
      have hcr : checkRates s0.sr (sa :: t) = .ok () :=
        (checkRates_ok_iff _ _).mpr fun s hs => hall s (List.mem_cons_of_mem _ hs)
      have hsr0' : s0'.sr = s0.sr := hall' s0' (List.mem_cons_self _ _)
      have hcr' : checkRates s0'.sr (sa' :: t') = .ok () := by
        rw [hsr0']
        exact (checkRates_ok_iff _ _).mpr fun s hs => hall' s (List.mem_cons_of_mem _ hs)
      have hmap : ((s0 :: sa :: t).map monoData).Perm ((s0' :: sa' :: t').map monoData) :=
        hperm.map _
      have hcore : mixCore ((s0 :: sa :: t).map monoData) s0.sr =
          mixCore ((s0' :: sa' :: t').map monoData) s0.sr := by
        unfold mixCore
        have hmax : ((s0 :: sa :: t).map monoData).foldl (fun m d => max m d.length) 0 =
            ((s0' :: sa' :: t').map monoData).foldl (fun m d => max m d.length) 0 :=
          hmap.foldl_eq 0
        simp only [← hmax]
        rw [sumAxis0_perm (hmap.map (padEnd _)), (hmap.map (padEnd _)).length_eq]
      simp only [mix_stems, hcr, hcr']
      rw [hsr0']
      exact hcore

theorem C9_mix_stems_perm_witness :
    mix_stems [⟨.mono [1], 44100⟩, ⟨.mono [0, 1], 44100⟩] =
      mix_stems [⟨.mono [0, 1], 44100⟩, ⟨.mono [1], 44100⟩] :=
  C9_mix_stems_perm _ _ (List.Perm.swap _ _ _) (by simp)
    (by
      intro s1 h1 s2 h2
      simp only [List.mem_cons, List.not_mem_nil, or_false] at h1 h2
      rcases h1 with rfl | rfl <;> rcases h2 with rfl | rfl <;> rfl)

theorem addLists_replicate_append (k : ℕ) (u1 u2 v1 v2 : ℚ) :
    addLists (List.replicate k u1 ++ List.replicate k u2)
             (List.replicate k v1 ++ List.replicate k v2) =
      List.replicate k (u1 + v1) ++ List.replicate k (u2 + v2) := by
  unfold addLists
  rw [List.zipWith_append _ _ _ _ _ (by rw [List.length_replicate, List.length_replicate]),
    List.zipWith_replicate, List.zipWith_replicate]
  simp only [min_self]

theorem npMax_abs_half_quarter {k : ℕ} (hk : k ≠ 0) :
    npMax ((List.replicate k (0:ℚ) ++ List.replicate k ((1:ℚ)/4)).map (fun x => |x|)) =
      1/4 := by
  have hmap : (List.replicate k (0:ℚ) ++ List.replicate k ((1:ℚ)/4)).map (fun x => |x|) =
      List.replicate k (0:ℚ) ++ List.replicate k ((1:ℚ)/4) := by
    rw [List.map_append, List.map_replicate, List.map_replicate, abs_zero,
      abs_of_nonneg (by norm_num : (0:ℚ) ≤ 1/4)]
  rw [hmap]
  have hne : List.replicate k (0:ℚ) ++ List.replicate k ((1:ℚ)/4) ≠ [] := by
    intro h0
    have hl := congrArg List.length h0
    rw [List.length_append, List.length_replicate, List.length_replicate,
      List.length_nil] at hl
    omega
  have hle : (1:ℚ)/4 ≤ npMax (List.replicate k (0:ℚ) ++ List.replicate k ((1:ℚ)/4)) :=
    le_npMax _ _ (List.mem_append_right _ (List.mem_replicate.mpr ⟨hk, rfl⟩))
  rcases List.mem_append.mp (npMax_mem hne) with h | h
  · rw [List.eq_of_mem_replicate h] at hle
    norm_num at hle
  · exact List.eq_of_mem_replicate h

theorem mix_stems_replicate_general (n : ℕ) (hn : n ≠ 0) (sr : ℕ) :
    mix_stems [⟨.mono (List.replicate (2 * n) ((1:ℚ)/2)), sr⟩,
               ⟨.mono (List.replicate n (-((1:ℚ)/2))), sr⟩] =
      .ok (List.replicate n 0 ++ List.replicate n ((1:ℚ)/4), sr) := by
  have hcr : checkRates sr [⟨.mono (List.replicate n (-((1:ℚ)/2))), sr⟩] = .ok () := by
    unfold checkRates
    rw [if_neg (by intro hh; exact hh rfl)]
    rfl
  have hmaxlen : List.foldl (fun m d => max m d.length) 0
      [List.replicate (2 * n) ((1:ℚ)/2), List.replicate n (-((1:ℚ)/2))] = 2 * n := by
    rw [List.foldl_cons, List.foldl_cons, List.foldl_nil, List.length_replicate,
      List.length_replicate, Nat.zero_max, max_eq_left (by omega : n ≤ 2 * n)]
  have hpadA : padEnd (2 * n) (List.replicate (2 * n) ((1:ℚ)/2)) =
      List.replicate (2 * n) ((1:ℚ)/2) := by
    unfold padEnd
    rw [List.length_replicate, Nat.sub_self, List.replicate_zero, List.append_nil]
  have hpadB : padEnd (2 * n) (List.replicate n (-((1:ℚ)/2))) =
      List.replicate n (-((1:ℚ)/2)) ++ List.replicate n 0 := by
    unfold padEnd
    rw [List.length_replicate]
    have h2 : 2 * n - n = n := by omega
    rw [h2]
  have hsum : sumAxis0 [List.replicate (2 * n) ((1:ℚ)/2),
      List.replicate n (-((1:ℚ)/2)) ++ List.replicate n 0] (2 * n) =
      List.replicate n (0:ℚ) ++ List.replicate n ((1:ℚ)/2) := by
    unfold sumAxis0
    rw [List.foldr_cons, List.foldr_cons, List.foldr_nil]
    rw [show List.replicate (2 * n) (0:ℚ) = List.replicate n 0 ++ List.replicate n 0 by
      rw [two_mul, List.replicate_add]]
    rw [addLists_replicate_append]
    rw [show List.replicate (2 * n) ((1:ℚ)/2) =
        List.replicate n ((1:ℚ)/2) ++ List.replicate n ((1:ℚ)/2) by
      rw [two_mul, List.replicate_add]]
    rw [addLists_replicate_append]
    norm_num
  have hstlen : ([List.replicate (2 * n) ((1:ℚ)/2),
      List.replicate n (-((1:ℚ)/2)) ++ List.replicate n 0] : List (List ℚ)).length = 2 := rfl
  have hmixRaw : (List.replicate n (0:ℚ) ++ List.replicate n ((1:ℚ)/2)).map
      (fun x => x / (((2:ℕ)):ℚ)) = List.replicate n (0:ℚ) ++ List.replicate n ((1:ℚ)/4) := by
    rw [List.map_append, List.map_replicate, List.map_replicate]
    norm_num
  simp only [mix_stems, hcr, List.map_cons, List.map_nil, monoData, mixCore, hmaxlen,
    hpadA, hpadB]
  rw [if_neg (by omega : ¬ (2 * n = 0))]
  rw [hsum, hstlen, hmixRaw, npMax_abs_half_quarter hn]
  rw [if_neg (by norm_num : ¬ ((1:ℚ) < 1/4))]

theorem mix_stems_fixture_eq :
    mix_stems [⟨.mono (List.replicate 1600 ((1:ℚ)/2)), 16000⟩,
               ⟨.mono (List.replicate 800 (-((1:ℚ)/2))), 16000⟩] =
      .ok (List.replicate 800 0 ++ List.replicate 800 ((1:ℚ)/4), 16000) := by
  have h := mix_stems_replicate_general 800 (by norm_num) 16000
  rw [show 2 * 800 = 1600 from rfl] at h
  exact h

/-- C2 counterexample: on the two-stem fixture (1600 samples of 0.5 and 800
samples of -0.5 at one sample rate) the output sample at index 800 is 0.25,
refuting the claim that samples at indices 800..1599 equal 0.0. -/
theorem C2_counterexample :
    ¬ ∀ out, mix_stems [⟨.mono (List.replicate 1600 ((1:ℚ)/2)), 16000⟩,
                        ⟨.mono (List.replicate 800 (-((1:ℚ)/2))), 16000⟩] = .ok out →
        out.1.getD 800 0 = 0 := by
  intro hclaim
  have h := hclaim (List.replicate 800 0 ++ List.replicate 800 ((1:ℚ)/4), 16000)
    mix_stems_fixture_eq
  dsimp only at h
  have h2 : (List.replicate 800 (0:ℚ) ++ List.replicate 800 ((1:ℚ)/4)).getD 800 0 = 1/4 := by
    rw [List.getD_append_right _ _ _ _ (by rw [List.length_replicate]),
      List.length_replicate, Nat.sub_self,
      show List.replicate 800 ((1:ℚ)/4) = 1/4 :: List.replicate 799 ((1:ℚ)/4) from rfl,
      List.getD_cons_zero]
  rw [h] at h2
  exact absurd h2 (by norm_num)

/-- C2 (amended): on the two-stem fixture, the mixed output is exactly 800
zeros followed by 800 samples of value (0.5 + 0)/2 = 0.25, with length 1600
and the common sample rate: the shorter stem is zero-padded at the end, the
per-sample arithmetic mean is taken across stems, and samples at indices
0..799 equal (0.5 + -0.5)/2 = 0.0 while samples at indices 800..1599 equal
0.25, not 0.0. -/
theorem C2_mix_stems_fixture :
    mix_stems [⟨.mono (List.replicate 1600 ((1:ℚ)/2)), 16000⟩,
               ⟨.mono (List.replicate 800 (-((1:ℚ)/2))), 16000⟩] =
      .ok (List.replicate 800 0 ++ List.replicate 800 ((1:ℚ)/4), 16000) ∧
    (List.replicate 800 (0:ℚ) ++ List.replicate 800 ((1:ℚ)/4)).length = 1600 :=
  ⟨mix_stems_fixture_eq, by
    rw [List.length_append, List.length_replicate, List.length_replicate]⟩

theorem mean_magnitude_nonneg {magnitude : List (List ℚ)} {mask : List Bool}
    (h : ∀ row ∈ magnitude, ∀ x ∈ row, 0 ≤ x) :
    0 ≤ _mean_magnitude magnitude mask := by
  unfold _mean_magnitude
  split
  · exact le_refl 0
  · apply npMean_nonneg
    intro x hx
    rw [List.mem_flatten] at hx
    obtain ⟨row, hrow, hxrow⟩ := hx
    rw [List.mem_map] at hrow
    obtain ⟨p, hp, rfl⟩ := hrow
    obtain ⟨bl, row⟩ := p
    rw [List.mem_filter] at hp
    exact h row (List.of_mem_zip hp.1).2 x hxrow

/-- C8: in the band-energy computation, a spectrogram bin is selected for a
band iff its frequency lies in the half-open range [low, high) with high =
none meaning unbounded above; a band whose mask selects nothing gets energy
0.0 (the computation is total, never an error); the resulting band_energy has
exactly the keys low, mid, high in order; and on any nonnegative magnitude
spectrogram every band value is nonnegative. -/
theorem C8_band_energy (magnitude : List (List ℚ)) (freqs : List ℚ) :
    (∀ (low : ℚ) (high : Option ℚ) (fq : ℚ),
      bandMaskBin low high fq = true ↔ (low ≤ fq ∧ ∀ h, high = some h → fq < h)) ∧
    (∀ (low : ℚ) (high : Option ℚ),
      (∀ b ∈ bandMask freqs low high, b = false) →
        _mean_magnitude magnitude (bandMask freqs low high) = 0) ∧
    (band_energy_of magnitude freqs).map Prod.fst = ["low", "mid", "high"] ∧
    ((∀ row ∈ magnitude, ∀ x ∈ row, 0 ≤ x) →
      ∀ p ∈ band_energy_of magnitude freqs, 0 ≤ p.2) := by
  refine ⟨?_, ?_, ?_, ?_⟩
  · intro low high fq
    cases high with
    | none => simp [bandMaskBin]
    | some h => simp [bandMaskBin, and_comm]
  · intro low high hfalse
    unfold _mean_magnitude
    rw [if_pos]
    rw [List.any_eq_false]
    intro b hb
    rw [hfalse b hb]
    simp
  · rfl
  · intro hpos p hp
    simp only [band_energy_of, List.mem_map] at hp
    obtain ⟨bnd, _, rfl⟩ := hp
    exact mean_magnitude_nonneg hpos

theorem C8_band_energy_witness :
    (band_energy_of [[(1:ℚ)]] [100]).map Prod.fst = ["low", "mid", "high"] ∧
    ∀ p ∈ band_energy_of [[(1:ℚ)]] [100], 0 ≤ p.2 :=
  ⟨(C8_band_energy [[(1:ℚ)]] [100]).2.2.1,
   (C8_band_energy [[(1:ℚ)]] [100]).2.2.2
     (by
       intro r hr x hx
       simp only [List.mem_cons, List.not_mem_nil, or_false] at hr
       subst hr
       simp only [List.mem_cons, List.not_mem_nil, or_false] at hx
       subst hx
       norm_num)⟩

theorem linspace_length (a b : ℚ) (n : ℕ) : (linspace a b n).length = n := by
  match n with
  | 0 => rfl
  | 1 => rfl
  | m + 2 =>
    show ((List.range (m + 2)).map
        (fun (i : ℕ) => a + (b - a) * (i : ℚ) / ((m + 1 : ℕ) : ℚ))).length = m + 2
    rw [List.length_map, List.length_range]

theorem resampleFrames_length (fr : List (List ℚ)) (t : ℕ) :
    (resampleFrames fr t).length = t := by
  unfold resampleFrames
  rw [List.length_map, linspace_length]

theorem resampleFrames_rows (fr : List (List ℚ)) (t : ℕ) :
    ∀ r ∈ resampleFrames fr t, r.length = (fr.headD []).length := by
  intro r hr
  unfold resampleFrames at hr
  rw [List.mem_map] at hr
  obtain ⟨x, _, rfl⟩ := hr
  rw [List.length_map, List.length_range]

theorem padFrames_length (fr : List (List ℚ)) (n : ℕ) :
    (padFrames fr n).length = max fr.length n := by
  unfold padFrames
  rw [List.length_append, List.length_replicate]
  omega

theorem padFrames_rows {fr : List (List ℚ)} {n : ℕ} (h : ∀ r ∈ fr, r.length = 2) :
    ∀ r ∈ padFrames fr n, r.length = 2 := by
  intro r hr
  rw [padFrames, List.mem_append] at hr
  rcases hr with hr | hr
  · exact h r hr
  · rw [List.eq_of_mem_replicate hr, List.length_replicate]

theorem exists_of_mem_zipWith {α β γ : Type} {f : α → β → γ} {l1 : List α} {l2 : List β}
    {c : γ} (h : c ∈ List.zipWith f l1 l2) : ∃ a ∈ l1, ∃ b ∈ l2, c = f a b := by
  induction l1 generalizing l2 with
  | nil => simp at h
  | cons x xs ih =>
    cases l2 with
    | nil => simp at h
    | cons y ys =>
      rw [List.zipWith_cons_cons] at h
      rcases List.mem_cons.mp h with rfl | h'
      · exact ⟨x, List.mem_cons_self _ _, y, List.mem_cons_self _ _, rfl⟩
      · obtain ⟨a, ha, b, hb, rfl⟩ := ih h'
        exact ⟨a, List.mem_cons_of_mem _ ha, b, List.mem_cons_of_mem _ hb, rfl⟩

theorem peakNormalize_length (mix : List (List ℚ)) :
    (peakNormalize mix).length = mix.length := by
  unfold peakNormalize
  split
  · rw [List.length_map]
  · rfl

theorem peakNormalize_rows {mix : List (List ℚ)} (h : ∀ r ∈ mix, r.length = 2) :
    ∀ r ∈ peakNormalize mix, r.length = 2 := by
  intro r hr
  unfold peakNormalize at hr
  split at hr
  · rw [List.mem_map] at hr
    obtain ⟨r0, hr0, rfl⟩ := hr
    rw [List.length_map]
    exact h r0 hr0
  · exact h r hr

theorem mixSum_length (b v : List (List ℚ)) (g : ℚ) :
    (mixSum b v g).length = min b.length v.length := by
  unfold mixSum
  rw [List.length_zipWith]

theorem mixSum_rows {b v : List (List ℚ)} {g : ℚ}
    (hb : ∀ r ∈ b, r.length = 2) (hv : ∀ r ∈ v, r.length = 2) :
    ∀ r ∈ mixSum b v g, r.length = 2 := by
  intro r hr
  unfold mixSum at hr
  obtain ⟨rb, hrb, rv, hrv, rfl⟩ := exists_of_mem_zipWith hr
  rw [List.length_zipWith, hb rb hrb, hv rv hrv, min_self]

theorem one_le_pythonRound {q : ℚ} (h : 1 < q) : 1 ≤ pythonRound q := by
  have hfl : (1:ℤ) ≤ Int.floor q := by
    rw [Int.le_floor]
    exact_mod_cast h.le
  simp only [pythonRound]
  split
  · exact hfl
  · split
    · omega
    · split
      · exact hfl
      · omega

theorem headD_length_two {v0 : List (List ℚ)} (hne : v0 ≠ []) (h : ∀ r ∈ v0, r.length = 2) :
    (v0.headD []).length = 2 := by
  cases v0 with
  | nil => exact absurd rfl hne
  | cons r rs => exact h r (List.mem_cons_self _ _)

theorem mix_backing_unfold (backing vocal : AudioFile) (g : ℚ)
    (hsb : backing.sr = 48000) (hsv : vocal.sr = 44100)
    (ht : ¬ pythonRound (((_to_stereo vocal.data).length : ℚ) * 48000 / 44100) ≤ 0) :
    mix_backing_and_vocal backing vocal g =
      (peakNormalize (mixSum
        (padFrames (_to_stereo backing.data)
          (max (_to_stereo backing.data).length
            (pythonRound (((_to_stereo vocal.data).length : ℚ) * 48000 / 44100)).toNat))
        (padFrames (resampleFrames (_to_stereo vocal.data)
            (pythonRound (((_to_stereo vocal.data).length : ℚ) * 48000 / 44100)).toNat)
          (max (_to_stereo backing.data).length
            (pythonRound (((_to_stereo vocal.data).length : ℚ) * 48000 / 44100)).toNat))
        g), 48000) := by
  simp only [mix_backing_and_vocal, hsb, hsv, Nat.cast_ofNat]
  rw [if_neg (by norm_num : ¬ (44100 = 48000))]
  rw [if_neg ht]
  rw [resampleFrames_length]

/-- C3 (amended): mixing a backing track at 48000 Hz with a vocal track at
44100 Hz resamples the vocal by linear interpolation to target_len =
round(vocal_length * 48000 / 44100) frames, and the written output has sample
rate 48000, channel count 2, and length max(backing length, target_len) —
equal to the backing track's length only when the resampled vocal is not
longer than the backing. -/
theorem C3_resampling (backing vocal : AudioFile) (g : ℚ)
    (hb : wfInput backing.data) (hv : wfInput vocal.data)
    (hsb : backing.sr = 48000) (hsv : vocal.sr = 44100)
    (hnv : _to_stereo vocal.data ≠ []) :
    (mix_backing_and_vocal backing vocal g).2 = 48000 ∧
    (resampleFrames (_to_stereo vocal.data)
        (pythonRound (((_to_stereo vocal.data).length : ℚ) * 48000 / 44100)).toNat).length =
      (pythonRound (((_to_stereo vocal.data).length : ℚ) * 48000 / 44100)).toNat ∧
    (∀ r ∈ (mix_backing_and_vocal backing vocal g).1, r.length = 2) ∧
    (mix_backing_and_vocal backing vocal g).1.length =
      max (_to_stereo backing.data).length
        (pythonRound (((_to_stereo vocal.data).length : ℚ) * 48000 / 44100)).toNat := by
  have hlen1 : 1 ≤ (_to_stereo vocal.data).length := by
    rcases List.exists_cons_of_ne_nil hnv with ⟨r, rs, he⟩
    rw [he]
    simp
  have hq : 1 < ((_to_stereo vocal.data).length : ℚ) * 48000 / 44100 := by
    rw [lt_div_iff₀ (by norm_num : (0:ℚ) < 44100)]
    have h1 : (1:ℚ) ≤ ((_to_stereo vocal.data).length : ℚ) := by exact_mod_cast hlen1
    nlinarith
  have ht1 : 1 ≤ pythonRound (((_to_stereo vocal.data).length : ℚ) * 48000 / 44100) :=
    one_le_pythonRound hq
  have hmb := mix_backing_unfold backing vocal g hsb hsv (by omega)
  refine ⟨?_, resampleFrames_length _ _, ?_, ?_⟩
  · rw [hmb]
  · rw [hmb]
    intro r hr
    refine peakNormalize_rows ?_ r hr
    refine mixSum_rows (padFrames_rows (to_stereo_rows_two hb)) (padFrames_rows ?_)
    intro r' hr'
    rw [resampleFrames_rows _ _ r' hr']
    exact headD_length_two hnv (to_stereo_rows_two hv)
  · rw [hmb]
    rw [peakNormalize_length, mixSum_length, padFrames_length, padFrames_length,
      resampleFrames_length]
    omega

theorem pythonRound_320_147 : pythonRound (((2:ℕ):ℚ) * 48000 / 44100) = 2 := by
  have hval : (((2:ℕ):ℚ) * 48000 / 44100) = 320/147 := by push_cast; norm_num
  rw [hval]
  have hfl : Int.floor ((320:ℚ)/147) = 2 := by
    rw [Int.floor_eq_iff]
    norm_num
  simp only [pythonRound, hfl]
  rw [if_pos (by norm_num)]

theorem pythonRound_160_147 : pythonRound (((1:ℕ):ℚ) * 48000 / 44100) = 1 := by
  have hval : (((1:ℕ):ℚ) * 48000 / 44100) = 160/147 := by push_cast; norm_num
  rw [hval]
  have hfl : Int.floor ((160:ℚ)/147) = 1 := by
    rw [Int.floor_eq_iff]
    norm_num
  simp only [pythonRound, hfl]
  rw [if_pos (by norm_num)]

/-- C3 counterexample: a backing track of 1 frame at 48000 Hz mixed with a
vocal track of 2 frames at 44100 Hz yields an output of length 2 (the
resampled vocal length round(2 * 48000 / 44100) = 2), not the backing
track's length 1. -/
theorem C3_counterexample :
    (mix_backing_and_vocal ⟨.mono [(0:ℚ)], 48000⟩ ⟨.mono [(0:ℚ), 0], 44100⟩ 1).1.length = 2 ∧
    (_to_stereo (AudioArray.mono [(0:ℚ)])).length = 1 := by
  have hmb := mix_backing_unfold ⟨.mono [(0:ℚ)], 48000⟩ ⟨.mono [(0:ℚ), 0], 44100⟩ 1 rfl rfl
    (by
      show ¬ pythonRound (((_to_stereo (AudioArray.mono [(0:ℚ), 0])).length : ℚ)
        * 48000 / 44100) ≤ 0
      rw [show (_to_stereo (AudioArray.mono [(0:ℚ), 0])).length = 2 from rfl,
        pythonRound_320_147]
      norm_num)
  refine ⟨?_, rfl⟩
  rw [hmb]
  rw [peakNormalize_length, mixSum_length, padFrames_length, padFrames_length,
    resampleFrames_length]
  rw [show (_to_stereo (AudioFile.mk (AudioArray.mono [(0:ℚ), 0]) 44100).data).length = 2
      from rfl,
    pythonRound_320_147]
  rw [show (_to_stereo (AudioFile.mk (AudioArray.mono [(0:ℚ)]) 48000).data).length = 1
      from rfl]
  decide

theorem C3_resampling_witness :
    (mix_backing_and_vocal ⟨.mono [(0:ℚ), 0, 0], 48000⟩ ⟨.mono [(1:ℚ)], 44100⟩ 1).2 = 48000 ∧
    (mix_backing_and_vocal ⟨.mono [(0:ℚ), 0, 0], 48000⟩ ⟨.mono [(1:ℚ)], 44100⟩ 1).1.length = 3 := by
  have h := C3_resampling ⟨.mono [(0:ℚ), 0, 0], 48000⟩ ⟨.mono [(1:ℚ)], 44100⟩ 1
    (by trivial) (by trivial) rfl rfl (by decide)
  refine ⟨h.1, ?_⟩
  have h4 := h.2.2.2
  rw [show (_to_stereo (AudioFile.mk (AudioArray.mono [(1:ℚ)]) 44100).data).length = 1
      from rfl,
    pythonRound_160_147] at h4
  rw [h4]
  rfl
